import Mathlib

/-!
Verification of the reference-tracking document renderer of
`research-agent/utils/pdf.py` and `research-agent/utils/pdf_utils.py`.

Text is modelled as `List Char` (ASCII scope).  Python's `re.sub` passes of
`_process_urls_in_markdown` are embedded as character-list scanners that
follow the two concrete patterns of the source:

* markdown links `\[([^\]]*)\]\(([^)]+)\)`,
* bare URLs `(?<!\[)\b(?:https?://|www\.)[^\s<>"\[\]]+(?!\])`.

Stateful code (`self.url_references`, `self.reference_counter`) becomes
explicit state passing over `RefState`; the Python `dict` keeps insertion
order, so it is embedded as an insertion-ordered list of references.
-/

namespace PdfSpec

/-- Python `str.isspace`-relevant whitespace for the regex class `\s`
(ASCII fragment): space, `\t\n\r`, vertical tab, form feed, and the
file/group/record/unit separators `\x1c`-`\x1f`, all of which Python's
`\s` and `str` whitespace handling match. -/
def pyIsSpace (c : Char) : Bool :=
  c = ' ' || c = '\t' || c = '\n' || c = '\r' || c = '\x0b' || c = '\x0c' ||
  c = '\x1c' || c = '\x1d' || c = '\x1e' || c = '\x1f'

/-- Characters allowed in the bare-URL body: the regex class
`[^\s<>"\[\]]` of `pdf.py` line 152. -/
def bareOk (c : Char) : Bool :=
  !(pyIsSpace c || c = '<' || c = '>' || c = '"' || c = '[' || c = ']')

/-- Regex word characters (`\w`, ASCII fragment): letters, digits, underscore. -/
def isWordChar (c : Char) : Bool := c.isAlphanum || c = '_'

/-! ## `extract_domain` (pdf_utils.py lines 23-31) -/

/-- `urllib.parse.urlsplit` first does
`url.lstrip(_WHATWG_C0_CONTROL_OR_SPACE)`: it strips *leading* C0
control and space characters (codepoint ≤ 0x20) only, deliberately
preserving trailing ones. -/
def pyUrlLstrip (s : List Char) : List Char :=
  s.dropWhile (fun c => c.toNat ≤ 32)

/-- `urlsplit` removes every ASCII tab, carriage return and newline from
the URL before parsing. -/
def pyRemoveUnsafe (s : List Char) : List Char :=
  s.filter (fun c => !(c = '\t' || c = '\r' || c = '\n'))

/-- Characters allowed in a URL scheme after the first: letters, digits,
`+`, `-`, `.`. -/
def schemeChar (c : Char) : Bool := c.isAlphanum || c = '+' || c = '-' || c = '.'

/-- Drop a leading `scheme:` from the URL when the part before the first
colon is a non-empty valid scheme (first character a letter), as
`urlsplit` does; otherwise return the string unchanged. -/
def dropScheme (u : List Char) : List Char :=
  let before := u.takeWhile (fun c => c ≠ ':')
  let after := u.dropWhile (fun c => c ≠ ':')
  match after with
  | ':' :: rest =>
    match before with
    | [] => u
    | c :: _ => if c.isAlpha && before.all schemeChar then rest else u
  | _ => u

/-- Hexadecimal digits (`ipaddress._BaseV6._HEX_DIGITS`). -/
def pyIsHexDigit (c : Char) : Bool :=
  c.isDigit || ('a' ≤ c && c ≤ 'f') || ('A' ≤ c && c ≤ 'F')

/-- Python `s.split(sep)` for a single-character separator: keeps empty
fields, always returns one part more than there are separators. -/
def splitOnChar (sep : Char) : List Char → List (List Char)
  | [] => [[]]
  | c :: cs =>
    let r := splitOnChar sep cs
    if c = sep then [] :: r
    else
      match r with
      | h :: t => (c :: h) :: t
      | [] => [[c]]

/-- `ipaddress._BaseV4._parse_octet` as a validator: non-empty, ASCII
digits only, at most 3 characters, no leading zero (except `0` itself),
value at most 255. -/
def validOctet (p : List Char) : Bool :=
  !p.isEmpty && p.all Char.isDigit && decide (p.length ≤ 3) &&
  (decide (p = ['0']) || !decide (p.head? = some '0')) &&
  decide (p.foldl (fun a c => a * 10 + (c.toNat - 48)) 0 ≤ 255)

/-- `ipaddress._BaseV4._ip_int_from_string` as a validator: exactly four
dot-separated valid octets. -/
def validIPv4 (s : List Char) : Bool :=
  !s.isEmpty &&
  (let octets := splitOnChar '.' s
   decide (octets.length = 4) && octets.all validOctet)

/-- `ipaddress._BaseV6._parse_hextet` as a validator: hex digits only, at
most 4, and non-empty (the final `int(hextet_str, 16)` rejects `""`). -/
def validHextet (p : List Char) : Bool :=
  !p.isEmpty && decide (p.length ≤ 4) && p.all pyIsHexDigit

/-- The part-shape validation of `ipaddress._BaseV6._ip_int_from_string`
after the IPv4-suffix expansion (the caller replaces an IPv4 suffix by
two placeholder parts, which in CPython are `%x`-formatted and hence
always non-empty valid hextets): at most 9 parts; at most one empty
interior part (the `::`); an empty first (resp. last) part only as the
left (resp. right) half of a leading (resp. trailing) `::`; with a `::`
the remaining copied parts number at most 7, without one there are
exactly 8 parts; every copied part is a valid hextet. -/
def validPartsV6 (parts : List (List Char)) : Bool :=
  decide (parts.length ≤ 9) &&
  (match parts.head?, parts.getLast? with
   | some first, some last =>
     let mids := (parts.drop 1).dropLast
     match mids.findIdx? (fun p => p.isEmpty) with
     | none =>
       decide (parts.length = 8) && !first.isEmpty && !last.isEmpty &&
         parts.all validHextet
     | some i =>
       let skip := i + 1
       let n := parts.length
       decide (mids.countP (fun p => p.isEmpty) = 1) &&
       (!first.isEmpty || decide (skip = 1)) &&
       (!last.isEmpty || decide (skip = n - 2)) &&
       (let hi := if first.isEmpty then skip - 1 else skip
        let lo := if last.isEmpty then n - skip - 2 else n - skip - 1
        decide (hi + lo ≤ 7) &&
        (parts.take hi).all validHextet &&
        (parts.drop (n - lo)).all validHextet)
   | _, _ => false)

/-- `ipaddress._BaseV6._ip_int_from_string` as a validator: non-empty, at
least 3 colon-separated parts, a dotted last part must be a valid IPv4
address and is replaced by the two placeholder parts, then the part
shape is checked. -/
def validIPv6NoScope (addr : List Char) : Bool :=
  !addr.isEmpty &&
  (let parts := splitOnChar ':' addr
   decide (3 ≤ parts.length) &&
   (match parts.getLast? with
    | none => false
    | some last =>
      if '.' ∈ last then
        validIPv4 last && validPartsV6 (parts.dropLast ++ [['0'], ['0']])
      else validPartsV6 parts))

/-- `ipaddress.IPv6Address.__init__` on a string as a validator: no `/`,
an optional `%scope` suffix split at the first `%` (the scope must be
non-empty and contain no further `%`), then the address body. -/
def validIPv6 (s : List Char) : Bool :=
  if '/' ∈ s then false
  else
    let addr := s.takeWhile (fun c => c ≠ '%')
    let rest := s.dropWhile (fun c => c ≠ '%')
    match rest with
    | [] => validIPv6NoScope addr
    | _ :: scope =>
      !scope.isEmpty && decide ('%' ∉ scope) && validIPv6NoScope addr

/-- `netloc.partition('[')[2].partition(']')[0]`: the text between the
first `[` and the following first `]` (empty when `[` is absent). -/
def bracketedHost (netloc : List Char) : List Char :=
  ((netloc.dropWhile (fun c => c ≠ '[')).drop 1).takeWhile (fun c => c ≠ ']')

/-- `urllib.parse._check_bracketed_host` as a validator: a host starting
with (lowercase) `v` must match `\Av[a-fA-F0-9]+\..+\Z` (IPvFuture),
anything else must be a valid IPv6 address — `ipaddress.ip_address`
raises for other strings, and an IPv4 address in brackets is rejected
explicitly. -/
def checkBracketedHost (hostname : List Char) : Bool :=
  match hostname with
  | 'v' :: rest =>
    !(rest.takeWhile pyIsHexDigit).isEmpty &&
    (match rest.dropWhile pyIsHexDigit with
     | '.' :: body => !body.isEmpty && decide ('\n' ∉ body)
     | _ => false)
  | _ => validIPv6 hostname

/-- The `netloc` component of `urlsplit` (ASCII model; for ASCII netlocs
the NFKC check `_checknetloc` never raises): after the leading strip,
unsafe-byte removal and scheme removal, when the remainder starts with
`//` the netloc is everything up to the next `/`, `?` or `#`; otherwise
it is empty.  A netloc containing `[` without `]` (or vice versa), or a
bracketed host that is neither a valid IPv6 address nor an IPvFuture
literal, makes `urlsplit` raise `ValueError` — modelled as `.error`. -/
def parseNetloc (u0 : List Char) : Except Unit (List Char) :=
  let u := pyRemoveUnsafe (pyUrlLstrip u0)
  let rest := dropScheme u
  match rest with
  | '/' :: '/' :: tail =>
    let netloc := tail.takeWhile (fun c => !(c = '/' || c = '?' || c = '#'))
    if ('[' ∈ netloc ∧ ']' ∉ netloc) ∨ (']' ∈ netloc ∧ '[' ∉ netloc) then
      .error ()
    else if '[' ∈ netloc ∧ ']' ∈ netloc then
      if checkBracketedHost (bracketedHost netloc) then .ok netloc
      else .error ()
    else .ok netloc
  | _ => .ok []

/-- `netloc.replace("www.", "")`: delete every (left-to-right,
non-overlapping) occurrence of `www.`. -/
def replaceWww : List Char → List Char
  | [] => []
  | 'w' :: 'w' :: 'w' :: '.' :: rest => replaceWww rest
  | c :: rest => c :: replaceWww rest

/-- `url.startswith(("http://", "https://"))`. -/
def startsWithHttp (u : List Char) : Bool :=
  "http://".toList.isPrefixOf u || "https://".toList.isPrefixOf u

/-- `extract_domain` (pdf_utils.py lines 23-31).  The `try` body prepends
`https://` when the input lacks an `http(s)://` prefix and parses; the
`except Exception` branch (reached when `urlparse` raises `ValueError`,
e.g. on an invalid bracketed netloc) and the `or url` fallback both
return the *rebound* `url`, i.e. the string with `https://` already
prepended when the input did not start with a scheme. -/
def extractDomain (url : List Char) : List Char :=
  let u := if startsWithHttp url then url else "https://".toList ++ url
  match parseNetloc u with
  | .error _ => u
  | .ok netloc =>
    let d := replaceWww netloc
    if d = [] then u else d

/-! ## `URLReference` (pdf_utils.py lines 11-17) and the rendering state -/

/-- `URLReference`: url, display title, 1-based number. -/
structure URLReference where
  url : List Char
  title : List Char
  number : Nat
deriving DecidableEq, Repr

/-- `URLReference.__init__`: `self.title = title or extract_domain(url)`. -/
def mkURLReference (url title : List Char) (number : Nat) : URLReference :=
  ⟨url, if title = [] then extractDomain url else title, number⟩

/-- The generator's mutable state: `self.url_references` (a `dict` in
insertion order) and `self.reference_counter`. -/
structure RefState where
  refs : List URLReference
  counter : Nat
deriving DecidableEq, Repr

/-- `ModernPDFGenerator.__init__` (pdf.py lines 23-25). -/
def initGen : RefState := ⟨[], 1⟩

/-- `self.url_references` lookup by exact url string. -/
def findRef (st : RefState) (url : List Char) : Option URLReference :=
  st.refs.find? (fun r => r.url = url)

/-- The replacement marker `f"[{ref.number}]"`. -/
def marker (n : Nat) : List Char := '[' :: (Nat.repr n).toList ++ [']']

/-! ## Pass 1: markdown links, `re.sub(r"\[([^\]]*)\]\(([^)]+)\)", replace_link, content)` -/

/-- Split a character list at the first occurrence of `stop`: returns the
(possibly empty) run of characters different from `stop` together with
what follows the `stop` character, or `none` when `stop` never occurs.
This is the unique way the greedy classes `[^\]]*` / `[^)]+` can match
when they are followed by the literal excluded character. -/
def splitUntil (stop : Char) : List Char → Option (List Char × List Char)
  | [] => none
  | c :: cs =>
    if c = stop then some ([], cs)
    else match splitUntil stop cs with
      | some (a, b) => some (c :: a, b)
      | none => none

/-- Try to match the link pattern `\[([^\]]*)\]\(([^)]+)\)` at the start
of `s`.  On success returns `(text, url, rest)` where `rest` is the input
after the matched span.  The url group must be non-empty (`+`). -/
def matchLinkAt (s : List Char) : Option (List Char × List Char × List Char) :=
  match s with
  | '[' :: s1 =>
    match splitUntil ']' s1 with
    | some (text, s2) =>
      match s2 with
      | '(' :: s3 =>
        match splitUntil ')' s3 with
        | some (url, s4) => if url = [] then none else some (text, url, s4)
        | none => none
      | _ => none
    | none => none
  | _ => none

/-- The span `match.group(0)` of a link match, reconstructed. -/
def linkSpan (text url : List Char) : List Char :=
  '[' :: text ++ ']' :: '(' :: url ++ [')']

/-- `replace_link` (pdf.py lines 127-149): anchors pass through untouched
and register nothing; otherwise the url is looked up by exact string,
inserted with the next counter value when absent, and the whole span is
replaced by the numbered marker. -/
def replaceLink (st : RefState) (text url : List Char) : List Char × RefState :=
  if url.head? = some '#' then
    (linkSpan text url, st)
  else
    match findRef st url with
    | some r => (marker r.number, st)
    | none =>
      let r := mkURLReference url
        (if text = [] then extractDomain url else text) st.counter
      (marker st.counter, ⟨st.refs ++ [r], st.counter + 1⟩)

/-- The `re.sub` scan for markdown links: try the pattern at every
position left to right; on a match emit the replacement and continue
after the matched span, otherwise emit one character and advance.  The
fuel argument only bounds the recursion; every step consumes at least
one character, so `s.length` fuel always suffices (`scanLinks_eq_fuel`). -/
def scanLinksF : Nat → RefState → List Char → List Char × RefState
  | 0, st, s => (s, st)
  | _ + 1, st, [] => ([], st)
  | fuel + 1, st, c :: cs =>
    match matchLinkAt (c :: cs) with
    | some (text, url, rest) =>
      let pr := replaceLink st text url
      let out := scanLinksF fuel pr.2 rest
      (pr.1 ++ out.1, out.2)
    | none =>
      let out := scanLinksF fuel st cs
      (c :: out.1, out.2)

/-- Pass 1 with sufficient fuel. -/
def scanLinks (st : RefState) (s : List Char) : List Char × RefState :=
  scanLinksF s.length st s

/-! ## Pass 2: bare URLs,
`re.sub(r'(?<!\[)\b(?:https?://|www\.)[^\s<>"\[\]]+(?!\])', replace_bare_url, processed)` -/

/-- The alternation `(?:https?://|www\.)` at the start of `s`: the three
branches are mutually exclusive on their first character(s), so at most
one applies.  Returns the matched prefix and the remainder. -/
def barePrefix (s : List Char) : Option (List Char × List Char) :=
  if "https://".toList.isPrefixOf s then some ("https://".toList, s.drop 8)
  else if "http://".toList.isPrefixOf s then some ("http://".toList, s.drop 7)
  else if "www.".toList.isPrefixOf s then some ("www.".toList, s.drop 4)
  else none

/-- Try to match the bare-URL pattern at the start of `s`, `prev` being
the character just before this position in the string being scanned
(`none` at position 0).  `(?<!\[)` forbids `prev = '['`; since the match
begins with a word character, `\b` holds iff `prev` is absent or not a
word character.  The greedy body `[^\s<>"\[\]]+` takes the maximal run;
when the lookahead `(?!\])` fails on the full run, backtracking gives up
exactly one character (the new following character is the run's last
character, which is never `]`), and a one-character run followed by `]`
kills the match (the other alternation branches cannot apply).  Returns
`(match, rest)`. -/
def matchBareAt (prev : Option Char) (s : List Char) :
    Option (List Char × List Char) :=
  if prev = some '[' then none
  else if (prev.map isWordChar).getD false then none
  else
    match barePrefix s with
    | none => none
    | some (pfx, s1) =>
      let run := s1.takeWhile bareOk
      let rest := s1.dropWhile bareOk
      if hrun : run = [] then none
      else if rest.head? = some ']' then
        if run.length < 2 then none
        else some (pfx ++ run.dropLast, run.getLast hrun :: rest)
      else some (pfx ++ run, rest)

/-- `replace_bare_url` (pdf.py lines 151-164): same dedup logic as
`replace_link`, with the title always derived from the domain. -/
def replaceBare (st : RefState) (url : List Char) : List Char × RefState :=
  match findRef st url with
  | some r => (marker r.number, st)
  | none =>
    let r := mkURLReference url (extractDomain url) st.counter
    (marker st.counter, ⟨st.refs ++ [r], st.counter + 1⟩)

/-- The `re.sub` scan for bare URLs.  `prev` tracks the previous character
of the string being scanned (the original text, not the emitted
replacement), as Python's lookbehind and `\b` examine the source string. -/
def scanBareF : Nat → RefState → Option Char → List Char → List Char × RefState
  | 0, st, _, s => (s, st)
  | _ + 1, st, _, [] => ([], st)
  | fuel + 1, st, prev, c :: cs =>
    match matchBareAt prev (c :: cs) with
    | some (m, rest) =>
      let pr := replaceBare st m
      let out := scanBareF fuel pr.2 m.getLast? rest
      (pr.1 ++ out.1, out.2)
    | none =>
      let out := scanBareF fuel st (some c) cs
      (c :: out.1, out.2)

/-- Pass 2 with sufficient fuel. -/
def scanBare (st : RefState) (s : List Char) : List Char × RefState :=
  scanBareF s.length st none s

/-- `_process_urls_in_markdown` (pdf.py lines 117-169) as a method on the
generator state: the incoming state is discarded by the reset
`self.url_references = {}; self.reference_counter = 1` (lines 121-123),
then the two substitution passes run in order, the second on the output
of the first. -/
def processUrlsGen (g : RefState) (content : List Char) : List Char × RefState :=
  let _ := g
  let p1 := scanLinks ⟨[], 1⟩ content
  scanBare p1.2 p1.1

/-- Processing on a freshly constructed generator. -/
def processUrls (content : List Char) : List Char × RefState :=
  processUrlsGen initGen content

/-! ## Filename synthesis (`save_research_to_pdf`, pdf.py lines 50-62) -/

/-- The character filter of the sanitizer:
`c.isalnum() or c in (" ", "-", "_")` (ASCII model of `isalnum`). -/
def keepChar (c : Char) : Bool := c.isAlphanum || c = ' ' || c = '-' || c = '_'

/-- Python `str.strip()`: drop leading and trailing whitespace. -/
def pyStrip (s : List Char) : List Char :=
  ((s.dropWhile pyIsSpace).reverse.dropWhile pyIsSpace).reverse

/-- `safe_query` (pdf.py lines 52-56):
`"".join(c for c in query[:50] if c.isalnum() or c in (" ", "-", "_")).strip().replace(" ", "_")`. -/
def safeQuery (query : List Char) : List Char :=
  (pyStrip ((query.take 50).filter keepChar)).map
    (fun c => if c = ' ' then '_' else c)

/-- Filename synthesis when `filename` is omitted (pdf.py lines 50-60):
`f"research_report_{safe_query}_{timestamp}.pdf"`, followed by the
`.endswith(".pdf")` check.  `datetime.now().strftime("%Y%m%d_%H%M%S")`
is impure, so the formatted timestamp is a parameter. -/
def genFilename (query ts : List Char) : List Char :=
  let f := "research_report_".toList ++ safeQuery query ++ '_' :: ts
    ++ ".pdf".toList
  if ".pdf".toList.isSuffixOf f then f else f ++ ".pdf".toList

/-- Modelled from the spec: the sanitized title as §4.1 words it — "only
alphanumeric characters, spaces, hyphens, and underscores are retained,
spaces become underscores, and the result is truncated to the first 50
characters of the title before sanitization" — with no intervening
`strip()`.  Present only for comparison with `safeQuery`. -/
def specSanitizedTitle (query : List Char) : List Char :=
  ((query.take 50).filter keepChar).map (fun c => if c = ' ' then '_' else c)

/-! ## HTML enhancement (`enhance_html_with_bs4`, pdf_utils.py lines 34-47)

`BeautifulSoup` is an external library; the repository's own code only
iterates over the elements of the parsed tree (`find_all`) and appends a
CSS class per matching tag, so the parsed document is abstracted to its
list of elements, and the library's parse and serialize steps are
fallible black-box parameters. -/

/-- An element of the parsed document: tag name and `class` attribute
(a list of class strings in BeautifulSoup). -/
structure SoupNode where
  tag : List Char
  classes : List (List Char)
deriving DecidableEq, Repr

/-- One `for … in soup.find_all(tag): …["class"] = ….get("class", []) + [cls]`
loop: append `cls` to the class list of every element with the given tag. -/
def addClassPass (tag cls : List Char) (soup : List SoupNode) : List SoupNode :=
  soup.map (fun n => if n.tag = tag then ⟨n.tag, n.classes ++ [cls]⟩ else n)

/-- The three loops of `enhance_html_with_bs4`, in source order. -/
def enhanceSoup (soup : List SoupNode) : List SoupNode :=
  addClassPass "pre".toList "research-code".toList
    (addClassPass "blockquote".toList "research-quote".toList
      (addClassPass "table".toList "research-table".toList soup))

/-- `enhance_html_with_bs4`: the whole body runs under
`try: … except Exception: return html`, so a failure of the black-box
parse (`BeautifulSoup(html, "html.parser")`) or of the black-box
serialization (`str(soup)`) yields the original input unchanged. -/
def enhanceHtmlWithBs4
    (parse : List Char → Except (List Char) (List SoupNode))
    (render : List SoupNode → Except (List Char) (List Char))
    (html : List Char) : List Char :=
  match parse html with
  | .error _ => html
  | .ok soup =>
    match render (enhanceSoup soup) with
    | .error _ => html
    | .ok out => out

/-! ## Document assembly (`create_html_document`, pdf_utils.py lines 50-84) -/

/-- One `<li>` entry of the reference list. -/
def entryHtml (r : URLReference) : List Char :=
  "<li><strong>".toList ++ r.title ++ "</strong><br/><a href='".toList
    ++ r.url ++ "'>".toList ++ r.url ++ "</a></li>".toList

/-- `sorted(references, key=lambda x: x.number)`: Python's stable
ascending sort, embedded as the (equally stable) `List.mergeSort`. -/
def sortRefs (refs : List URLReference) : List URLReference :=
  refs.mergeSort (fun a b => a.number ≤ b.number)

/-- `references_html` (pdf_utils.py lines 52-59): empty when no
references were collected, otherwise the `<div class='references'>`
block listing the sorted entries. -/
def refsHtml (refs : List URLReference) : List Char :=
  if refs = [] then []
  else
    "<div class='references'><h2>References</h2><ol class='references-list'>".toList
      ++ ((sortRefs refs).map entryHtml).flatten
      ++ "</ol></div>".toList

/-- The fixed document text before the query (the f-string template of
`create_html_document`). -/
def docPart1 : List Char :=
  ("\n<!DOCTYPE html>\n<html lang=\"en\">\n<head>\n    <meta charset=\"UTF-8\">\n"
    ++ "    <meta name=\"viewport\" content=\"width=device-width, initial-scale=1.0\">\n"
    ++ "    <title>Deep Research Report</title>\n</head>\n<body>\n"
    ++ "    <div class=\"document\">\n        <header class=\"document-header\">\n"
    ++ "            <h1 class=\"document-title\">Deep Research Report</h1>\n"
    ++ "            <p class=\"document-query\"><strong>Query:</strong> ").toList

/-- Fixed text between the query and the timestamp. -/
def docPart2 : List Char :=
  ("</p>\n            <p class=\"document-timestamp\">Generated on ").toList

/-- Fixed text between the timestamp and the content body. -/
def docPart3 : List Char :=
  ("</p>\n        </header>\n        <main class=\"document-content\">").toList

/-- Fixed text between the content body and the references block. -/
def docPart4 : List Char := ("</main>\n        ").toList

/-- Fixed text closing the document. -/
def docPart5 : List Char := ("\n    </div>\n</body>\n</html>\n").toList

/-- `create_html_document` (pdf_utils.py lines 50-84).  The generation
timestamp `datetime.now().strftime("%B %d, %Y at %I:%M %p")` is impure
and passed as a parameter. -/
def createHtmlDocument (content query ts : List Char)
    (references : List URLReference) : List Char :=
  docPart1 ++ query ++ docPart2 ++ ts ++ docPart3 ++ content
    ++ docPart4 ++ refsHtml references ++ docPart5

/-! ## First-occurrence index, used to state source-text ordering -/

/-- Index of the first occurrence of `needle` as a contiguous substring
of `hay`, if any. -/
def firstOcc (needle hay : List Char) : Option Nat :=
  (List.range (hay.length + 1)).find? (fun i => needle.isPrefixOf (hay.drop i))

/-! ## Structural lemmas about the matchers -/

theorem splitUntil_eq {stop : Char} :
    ∀ {l a b : List Char}, splitUntil stop l = some (a, b) → l = a ++ stop :: b := by
  intro l
  induction l with
  | nil => intro a b h; simp [splitUntil] at h
  | cons c cs ih =>
    intro a b h
    by_cases hc : c = stop
    · subst hc
      simp [splitUntil] at h
      obtain ⟨ha, hb⟩ := h
      subst ha; subst hb; rfl
    · rw [splitUntil, if_neg hc] at h
      cases hs : splitUntil stop cs with
      | none => rw [hs] at h; exact absurd h (by simp)
      | some p =>
        obtain ⟨a', b'⟩ := p
        rw [hs] at h
        simp only [Option.some.injEq, Prod.mk.injEq] at h
        obtain ⟨ha, hb⟩ := h
        subst ha; subst hb
        simpa using ih hs

theorem matchLinkAt_eq {s text url rest : List Char}
    (h : matchLinkAt s = some (text, url, rest)) :
    s = linkSpan text url ++ rest ∧ url ≠ [] := by
  unfold matchLinkAt at h
  split at h
  next s1 =>
    cases h1 : splitUntil ']' s1 with
    | none => simp [h1] at h
    | some p =>
      obtain ⟨t, s2⟩ := p
      simp only [h1] at h
      split at h
      next s3 =>
        cases h2 : splitUntil ')' s3 with
        | none => simp [h2] at h
        | some q =>
          obtain ⟨u, s4⟩ := q
          simp only [h2] at h
          split at h
          · simp at h
          · simp only [Option.some.injEq, Prod.mk.injEq] at h
            obtain ⟨ht, hu, hr⟩ := h
            subst ht; subst hu; subst hr
            refine ⟨?_, by assumption⟩
            have e1 := splitUntil_eq h1
            have e2 := splitUntil_eq h2
            subst e2
            simp [linkSpan, e1]
      next => simp at h
  next => simp at h

theorem matchLinkAt_length {s text url rest : List Char}
    (h : matchLinkAt s = some (text, url, rest)) :
    rest.length + 5 ≤ s.length := by
  obtain ⟨hs, hu⟩ := matchLinkAt_eq h
  subst hs
  have : 1 ≤ url.length := Nat.one_le_iff_ne_zero.mpr (by simpa using hu)
  simp [linkSpan]
  omega

theorem barePrefix_eq {s pfx s1 : List Char}
    (h : barePrefix s = some (pfx, s1)) : s = pfx ++ s1 ∧ pfx ≠ [] := by
  unfold barePrefix at h
  split_ifs at h with h1 h2 h3
  · simp only [Option.some.injEq, Prod.mk.injEq] at h
    obtain ⟨hp, hs⟩ := h
    subst hp; subst hs
    have e := List.prefix_iff_eq_append.mp (List.isPrefixOf_iff_prefix.mp h1)
    have hl : ("https://".toList).length = 8 := rfl
    rw [hl] at e
    exact ⟨e.symm, by decide⟩
  · simp only [Option.some.injEq, Prod.mk.injEq] at h
    obtain ⟨hp, hs⟩ := h
    subst hp; subst hs
    have e := List.prefix_iff_eq_append.mp (List.isPrefixOf_iff_prefix.mp h2)
    have hl : ("http://".toList).length = 7 := rfl
    rw [hl] at e
    exact ⟨e.symm, by decide⟩
  · simp only [Option.some.injEq, Prod.mk.injEq] at h
    obtain ⟨hp, hs⟩ := h
    subst hp; subst hs
    have e := List.prefix_iff_eq_append.mp (List.isPrefixOf_iff_prefix.mp h3)
    have hl : ("www.".toList).length = 4 := rfl
    rw [hl] at e
    exact ⟨e.symm, by decide⟩

theorem matchBareAt_eq {prev : Option Char} {s m rest : List Char}
    (h : matchBareAt prev s = some (m, rest)) : s = m ++ rest ∧ m ≠ [] := by
  unfold matchBareAt at h
  split_ifs at h with h1 h2
  cases hp : barePrefix s with
  | none => simp [hp] at h
  | some p =>
    obtain ⟨pfx, s1⟩ := p
    simp only [hp] at h
    obtain ⟨hps, hpne⟩ := barePrefix_eq hp
    have hne : ∀ x : List Char, pfx ++ x ≠ [] := by
      intro x hc
      exact hpne (List.append_eq_nil.mp hc).1
    have hsplit := List.takeWhile_append_dropWhile bareOk s1
    revert h hsplit
    generalize s1.takeWhile bareOk = run
    generalize s1.dropWhile bareOk = d
    intro h hsplit
    split_ifs at h with hrun hhead hlen
    · simp only [Option.some.injEq, Prod.mk.injEq] at h
      obtain ⟨hm, hr⟩ := h
      subst hm; subst hr
      refine ⟨?_, hne _⟩
      rw [hps, ← hsplit]
      conv_lhs => rw [← List.dropLast_append_getLast hrun]
      simp
    · simp only [Option.some.injEq, Prod.mk.injEq] at h
      obtain ⟨hm, hr⟩ := h
      subst hm; subst hr
      exact ⟨by rw [hps, ← hsplit, List.append_assoc], hne _⟩

theorem matchBareAt_head {prev : Option Char} {s m rest : List Char}
    (h : matchBareAt prev s = some (m, rest)) : rest.head? ≠ some ']' := by
  unfold matchBareAt at h
  split_ifs at h with h1 h2
  cases hp : barePrefix s with
  | none => simp [hp] at h
  | some p =>
    obtain ⟨pfx, s1⟩ := p
    simp only [hp] at h
    have hball : ∀ x ∈ s1.takeWhile bareOk, bareOk x :=
      fun _ hx => List.mem_takeWhile_imp hx
    revert h hball
    generalize s1.takeWhile bareOk = run
    generalize s1.dropWhile bareOk = d
    intro h hball
    split_ifs at h with hrun hhead hlen
    · simp only [Option.some.injEq, Prod.mk.injEq] at h
      obtain ⟨hm, hr⟩ := h
      subst hr
      simp only [List.head?_cons, ne_eq, Option.some.injEq]
      intro hc
      have hok := hball _ (List.getLast_mem hrun)
      rw [hc] at hok
      exact absurd hok (by decide)
    · simp only [Option.some.injEq, Prod.mk.injEq] at h
      obtain ⟨hm, hr⟩ := h
      subst hr
      exact hhead

theorem matchBareAt_length {prev : Option Char} {s m rest : List Char}
    (h : matchBareAt prev s = some (m, rest)) : rest.length + 1 ≤ s.length := by
  obtain ⟨hs, hm⟩ := matchBareAt_eq h
  subst hs
  have : 1 ≤ m.length := Nat.one_le_iff_ne_zero.mpr (by simpa using hm)
  simp
  omega

/-! ## Fuel sufficiency

Every scanning step consumes at least one character, so any fuel of at
least the input length computes the same result: the definitions
`scanLinks`/`scanBare` (fuel = input length) never hit the fuel-exhausted
branch. -/

theorem scanLinksF_fuel_succ :
    ∀ (fuel : Nat) (st : RefState) (s : List Char), s.length ≤ fuel →
      scanLinksF fuel st s = scanLinksF (fuel + 1) st s := by
  intro fuel
  induction fuel with
  | zero =>
    intro st s hs
    have : s = [] := List.eq_nil_of_length_eq_zero (Nat.le_zero.mp hs)
    subst this
    rfl
  | succ f ih =>
    intro st s hs
    cases s with
    | nil => rfl
    | cons c cs =>
      simp only [scanLinksF]
      cases hm : matchLinkAt (c :: cs) with
      | none =>
        have := ih st cs (by simpa using Nat.lt_succ_iff.mp (Nat.lt_of_lt_of_le (Nat.lt_succ_self _) (by simpa using hs)))
        simp only [this]
      | some v =>
        obtain ⟨text, url, rest⟩ := v
        have hlen := matchLinkAt_length hm
        have hr : rest.length ≤ f := by
          simp only [List.length_cons] at hlen hs
          omega
        simp only [ih _ rest hr]

theorem scanLinks_eq_fuel (k : Nat) :
    ∀ (st : RefState) (s : List Char),
      scanLinksF (s.length + k) st s = scanLinks st s := by
  induction k with
  | zero => intro st s; rfl
  | succ k ih =>
    intro st s
    rw [← Nat.add_assoc, ← scanLinksF_fuel_succ (s.length + k) st s (Nat.le_add_right _ _)]
    exact ih st s

theorem scanBareF_fuel_succ :
    ∀ (fuel : Nat) (st : RefState) (prev : Option Char) (s : List Char),
      s.length ≤ fuel →
      scanBareF fuel st prev s = scanBareF (fuel + 1) st prev s := by
  intro fuel
  induction fuel with
  | zero =>
    intro st prev s hs
    have : s = [] := List.eq_nil_of_length_eq_zero (Nat.le_zero.mp hs)
    subst this
    rfl
  | succ f ih =>
    intro st prev s hs
    cases s with
    | nil => rfl
    | cons c cs =>
      simp only [scanBareF]
      cases hm : matchBareAt prev (c :: cs) with
      | none =>
        have hcs : cs.length ≤ f := by
          simp only [List.length_cons] at hs
          omega
        simp only [ih st (some c) cs hcs]
      | some v =>
        obtain ⟨m, rest⟩ := v
        have hlen := matchBareAt_length hm
        have hr : rest.length ≤ f := by
          simp only [List.length_cons] at hlen hs
          omega
        simp only [ih _ _ rest hr]

theorem scanBare_eq_fuel (k : Nat) :
    ∀ (st : RefState) (s : List Char),
      scanBareF (s.length + k) st none s = scanBare st s := by
  induction k with
  | zero => intro st s; rfl
  | succ k ih =>
    intro st s
    rw [← Nat.add_assoc, ← scanBareF_fuel_succ (s.length + k) st none s (Nat.le_add_right _ _)]
    exact ih st s

/-! ## The numbering invariant -/

/-- The invariant of the rendering state: the stored numbers are exactly
`1 .. length` in insertion order, the counter is the next free number,
and the urls are pairwise distinct. -/
def Inv (st : RefState) : Prop :=
  st.refs.map (fun r => r.number) = List.range' 1 st.refs.length ∧
  st.counter = st.refs.length + 1 ∧
  (st.refs.map (fun r => r.url)).Nodup

theorem inv_init : Inv initGen := ⟨rfl, rfl, List.nodup_nil⟩

theorem insert_inv {st : RefState} (url title : List Char)
    (hfind : findRef st url = none) (hinv : Inv st) :
    Inv ⟨st.refs ++ [mkURLReference url title st.counter], st.counter + 1⟩ := by
  obtain ⟨hnum, hcount, hnodup⟩ := hinv
  have hurl : ∀ x ∈ st.refs, x.url ≠ url := by
    intro x hx
    have := List.find?_eq_none.mp hfind x hx
    simpa using this
  refine ⟨?_, ?_, ?_⟩
  · have hr := @List.range'_concat 1 1 st.refs.length
    simp only [one_mul] at hr
    have hmknum : ∀ n, (mkURLReference url title n).number = n := fun _ => rfl
    simp only [List.map_append, List.map_cons, List.map_nil, hmknum, hnum, hcount,
      List.length_append, List.length_cons, List.length_nil, Nat.zero_add, hr]
    congr 2
    omega
  · simp [hcount]
  · simp only [List.map_append, List.map_cons, List.map_nil]
    have hmkurl : (mkURLReference url title st.counter).url = url := rfl
    rw [hmkurl]
    simp only [List.nodup_append, List.nodup_cons, List.not_mem_nil,
      not_false_iff, List.nodup_nil, and_true, true_and, hnodup]
    intro a ha hb
    simp only [List.mem_cons, List.not_mem_nil, or_false] at hb
    subst hb
    obtain ⟨x, hx, hxa⟩ := List.mem_map.mp ha
    exact hurl x hx hxa

theorem replaceLink_inv {st : RefState} (text url : List Char) (h : Inv st) :
    Inv (replaceLink st text url).2 := by
  unfold replaceLink
  split_ifs with h1 h2
  · exact h
  all_goals
    cases hf : findRef st url with
    | some r => exact h
    | none => exact insert_inv _ _ hf h

theorem replaceBare_inv {st : RefState} (url : List Char) (h : Inv st) :
    Inv (replaceBare st url).2 := by
  unfold replaceBare
  cases hf : findRef st url with
  | some r => exact h
  | none => exact insert_inv _ _ hf h

theorem scanLinksF_inv :
    ∀ (fuel : Nat) (st : RefState) (s : List Char), Inv st →
      Inv (scanLinksF fuel st s).2 := by
  intro fuel
  induction fuel with
  | zero => intro st s h; exact h
  | succ f ih =>
    intro st s h
    cases s with
    | nil => exact h
    | cons c cs =>
      simp only [scanLinksF]
      cases hm : matchLinkAt (c :: cs) with
      | none => exact ih st cs h
      | some v =>
        obtain ⟨text, url, rest⟩ := v
        exact ih _ rest (replaceLink_inv text url h)

theorem scanBareF_inv :
    ∀ (fuel : Nat) (st : RefState) (prev : Option Char) (s : List Char), Inv st →
      Inv (scanBareF fuel st prev s).2 := by
  intro fuel
  induction fuel with
  | zero => intro st prev s h; exact h
  | succ f ih =>
    intro st prev s h
    cases s with
    | nil => exact h
    | cons c cs =>
      simp only [scanBareF]
      cases hm : matchBareAt prev (c :: cs) with
      | none => exact ih st (some c) cs h
      | some v =>
        obtain ⟨m, rest⟩ := v
        exact ih _ _ rest (replaceBare_inv m h)

/-! ## Claim theorems -/

/-- C1 (amended): after URL processing there is at most one reference per
distinct literal url, and the `number` values are the contiguous sequence
`1..N`, listed in registration order — where registration handles every
markdown-link URL (in text order) before any bare URL (in text order),
not in order of first occurrence in the source text.  The final conjunct
records the registration order on a document whose bare URL precedes its
markdown link in the text. -/
theorem processUrls_numbering_invariant (content : List Char) :
    ((processUrls content).2.refs.map (fun r => r.number)
        = List.range' 1 (processUrls content).2.refs.length) ∧
    (processUrls content).2.counter = (processUrls content).2.refs.length + 1 ∧
    ((processUrls content).2.refs.map (fun r => r.url)).Nodup ∧
    ((processUrls "www.a.com [t](http://b.com)".toList).2.refs.map
        (fun r => (r.url, r.number))
      = [("http://b.com".toList, 1), ("www.a.com".toList, 2)]) := by
  have h1 : Inv (scanLinks initGen content).2 := scanLinksF_inv _ _ _ inv_init
  have h2 : Inv (processUrls content).2 := scanBareF_inv _ _ _ _ h1
  exact ⟨h2.1, h2.2.1, h2.2.2, by decide⟩

/-- C1 counterexample: on `"www.a.com [t](http://b.com)"` the numbers are
not assigned in order of first occurrence in the source text (bare and
markdown URLs alike): the bare URL `www.a.com` occurs first in the text
but receives number 2, the markdown-link URL `http://b.com` occurs later
but receives number 1. -/
theorem processUrls_not_source_text_order :
    ¬ (∀ r₁ ∈ (processUrls "www.a.com [t](http://b.com)".toList).2.refs,
        ∀ r₂ ∈ (processUrls "www.a.com [t](http://b.com)".toList).2.refs,
          (firstOcc r₁.url "www.a.com [t](http://b.com)".toList).getD 0 <
            (firstOcc r₂.url "www.a.com [t](http://b.com)".toList).getD 0 →
          r₁.number < r₂.number) := by decide

/-- C5: a markdown link whose url starts with `#` is left untouched (the
whole matched span is reproduced) and registers no reference; the
document `[Section](#intro)` comes out unchanged with an empty reference
state. -/
theorem anchor_links_untouched :
    (∀ (st : RefState) (text url : List Char), url.head? = some '#' →
        replaceLink st text url = (linkSpan text url, st)) ∧
    processUrls "[Section](#intro)".toList
      = ("[Section](#intro)".toList, initGen) := by
  constructor
  · intro st text url h
    simp [replaceLink, h]
  · decide

/-- Witness for C5 at a concrete anchor link. -/
theorem anchor_links_untouched_witness :
    replaceLink initGen "Section".toList "#intro".toList
      = (linkSpan "Section".toList "#intro".toList, initGen) :=
  anchor_links_untouched.1 initGen "Section".toList "#intro".toList rfl

/-- C6: `_process_urls_in_markdown` resets the reference mapping and the
counter before scanning, so its result does not depend on the generator
state it starts from: processing a second document after a first one on
the same generator equals processing it on a freshly constructed
generator. -/
theorem processUrlsGen_resets_state (g g' : RefState) (c₁ c₂ : List Char) :
    processUrlsGen g c₂ = processUrlsGen g' c₂ ∧
    processUrlsGen (processUrlsGen g c₁).2 c₂ = processUrlsGen initGen c₂ :=
  ⟨rfl, rfl⟩

/-- C2: the dedup key is the exact literal URL string.  A url already in
the mapping is never re-registered — both replacement callbacks then
return the existing number and leave the state unchanged — so a URL seen
once as markdown link and twice bare yields one entry referenced as `[1]`
at all three sites, while strings differing only by a trailing slash are
two distinct entries (no normalization). -/
theorem url_dedup_exact_key :
    (∀ (st : RefState) (text url : List Char) (r : URLReference),
        findRef st url = some r → url.head? ≠ some '#' →
        replaceLink st text url = (marker r.number, st) ∧
        replaceBare st url = (marker r.number, st)) ∧
    processUrls "[t](https://x.com/a) https://x.com/a https://x.com/a".toList
      = ("[1] [1] [1]".toList,
         ⟨[⟨"https://x.com/a".toList, "t".toList, 1⟩], 2⟩) ∧
    ((processUrls "[a](http://e.com/) [b](http://e.com)".toList).2.refs.map
        (fun r => (r.url, r.number))
      = [("http://e.com/".toList, 1), ("http://e.com".toList, 2)]) := by
  refine ⟨?_, by decide, by decide⟩
  intro st text url r hf h
  constructor
  · simp [replaceLink, h, hf]
  · simp [replaceBare, hf]

/-- Witness for C2's dedup property at a concrete state and url. -/
theorem url_dedup_exact_key_witness :
    replaceLink ⟨[⟨"http://u.x".toList, "t".toList, 1⟩], 2⟩ "y".toList
        "http://u.x".toList
      = (marker 1, ⟨[⟨"http://u.x".toList, "t".toList, 1⟩], 2⟩) ∧
    replaceBare ⟨[⟨"http://u.x".toList, "t".toList, 1⟩], 2⟩ "http://u.x".toList
      = (marker 1, ⟨[⟨"http://u.x".toList, "t".toList, 1⟩], 2⟩) :=
  url_dedup_exact_key.1 ⟨[⟨"http://u.x".toList, "t".toList, 1⟩], 2⟩ "y".toList
    "http://u.x".toList ⟨"http://u.x".toList, "t".toList, 1⟩ (by decide) (by decide)

/-- C3 counterexample: the markdown link `[]( https://example.com/page )`
does not yield the title `example.com`: the capture group keeps the
surrounding spaces, so `extract_domain` prepends `https://` to a string
that merely *contains* a scheme, and the parsed host is `" https:"`. -/
theorem empty_text_title_not_domain :
    (processUrls "[]( https://example.com/page )".toList).2.refs.map
        (fun r => r.title) ≠ ["example.com".toList] ∧
    (processUrls "[]( https://example.com/page )".toList).2.refs.map
        (fun r => r.title) = [" https:".toList] := by decide

/-- C3 (amended): a markdown link with empty link text titles its new
reference with `extract_domain` of the *exact captured* URL string
(surrounding spaces included); without the spaces,
`[](https://example.com/page)` does yield the title `example.com`.  The
last two conjuncts pin `extract_domain`'s edge behavior at captured
URLs: a trailing space stays in the host (`urlsplit` strips leading
characters only), and an unbalanced bracket makes `urlparse` raise, so
the `except` branch titles the reference with the URL itself. -/
theorem empty_text_title_extract_domain :
    (∀ (st : RefState) (url : List Char), url.head? ≠ some '#' →
        findRef st url = none →
        (replaceLink st [] url).2.refs
          = st.refs ++ [⟨url, extractDomain url, st.counter⟩]) ∧
    (processUrls "[](https://example.com/page)".toList).2.refs
      = [⟨"https://example.com/page".toList, "example.com".toList, 1⟩] ∧
    (processUrls "[](http://host )".toList).2.refs
      = [⟨"http://host ".toList, "host ".toList, 1⟩] ∧
    (processUrls "[](http://[a)".toList).2.refs
      = [⟨"http://[a".toList, "http://[a".toList, 1⟩] := by
  refine ⟨?_, by decide, by decide, by decide⟩
  intro st url h hf
  simp [replaceLink, h, hf, mkURLReference]

/-- Witness for C3's amended general clause at a concrete link. -/
theorem empty_text_title_extract_domain_witness :
    (replaceLink initGen [] "https://example.com/page".toList).2.refs
      = [⟨"https://example.com/page".toList,
          extractDomain "https://example.com/page".toList, 1⟩] :=
  empty_text_title_extract_domain.1 initGen "https://example.com/page".toList
    (by decide) (by decide)

/-- C9: the bare-URL matcher never produces a match immediately followed
by `]` (the lookahead `(?!\])` backtracks the greedy run by one
character), so on `"see www.example.com]"` the registered URL is
`www.example.co` — the textual URL with its final character dropped — and
the dedup key differs from the full URL string. -/
theorem bare_url_never_before_rbracket :
    (∀ (prev : Option Char) (s m rest : List Char),
        matchBareAt prev s = some (m, rest) → rest.head? ≠ some ']') ∧
    processUrls "see www.example.com]".toList
      = ("see [1]m]".toList,
         ⟨[⟨"www.example.co".toList, "example.co".toList, 1⟩], 2⟩) ∧
    "www.example.co".toList ≠ "www.example.com".toList :=
  ⟨fun _ _ _ _ h => matchBareAt_head h, by decide, by decide⟩

/-- Witness for C9's lookahead property at a concrete match. -/
theorem bare_url_never_before_rbracket_witness :
    ("b]".toList).head? ≠ some ']' :=
  bare_url_never_before_rbracket.1 none "www.ab]".toList "www.a".toList
    "b]".toList (by decide)

/-- C10 counterexample: on empty-host fallback `extract_domain` does not
return its input: for the input `""` it returns the rebound, https-
prefixed string `"https://"`. -/
theorem extract_domain_empty_not_input :
    extractDomain "".toList ≠ "".toList ∧
    extractDomain "".toList = "https://".toList := by decide

/-- C10 (amended): `extract_domain` is total (the `except` swallows the
`ValueError` that `urlparse` raises on invalid bracketed netlocs) and
never returns an empty string — so every `URLReference` carries a
non-empty title — and whenever parsing fails or the parsed host (after
`www.`-removal) is empty it falls back to the *processed* URL: the input
itself when it already starts with `http://` or `https://`, otherwise
`https://` + input. -/
theorem extract_domain_total :
    (∀ url : List Char, extractDomain url ≠ []) ∧
    (∀ (url title : List Char) (n : Nat), (mkURLReference url title n).title ≠ []) ∧
    (∀ url : List Char,
        parseNetloc (if startsWithHttp url then url
            else "https://".toList ++ url) = .error () →
        extractDomain url
          = (if startsWithHttp url then url else "https://".toList ++ url)) ∧
    (∀ url netloc : List Char,
        parseNetloc (if startsWithHttp url then url
            else "https://".toList ++ url) = .ok netloc →
        replaceWww netloc = [] →
        extractDomain url
          = (if startsWithHttp url then url else "https://".toList ++ url)) := by
  have hpfx : ∀ (p u : List Char), p.isPrefixOf u = true → p ≠ [] → u ≠ [] := by
    intro p u hp hne
    obtain ⟨t, ht⟩ := List.isPrefixOf_iff_prefix.mp hp
    intro hc
    rw [← ht] at hc
    exact hne (List.append_eq_nil.mp hc).1
  have hu : ∀ url : List Char,
      (if startsWithHttp url then url else "https://".toList ++ url) ≠ [] := by
    intro url
    split_ifs with hs
    · have hs' : "http://".toList.isPrefixOf url = true ∨
          "https://".toList.isPrefixOf url = true := by
        simpa [startsWithHttp] using hs
      rcases hs' with hp | hp
      · exact hpfx _ _ hp (by decide)
      · exact hpfx _ _ hp (by decide)
    · intro hc
      exact absurd (List.append_eq_nil.mp hc).1 (by decide)
  have h1 : ∀ url : List Char, extractDomain url ≠ [] := by
    intro url
    simp only [extractDomain]
    cases hp : parseNetloc (if startsWithHttp url then url
        else "https://".toList ++ url) with
    | error e => exact hu url
    | ok netloc =>
      show (if replaceWww netloc = []
            then (if startsWithHttp url = true then url
                  else "https://".toList ++ url)
            else replaceWww netloc) ≠ []
      by_cases hd : replaceWww netloc = []
      · rw [if_pos hd]
        exact hu url
      · rw [if_neg hd]
        exact hd
  refine ⟨h1, ?_, ?_, ?_⟩
  · intro url title n
    show (if title = [] then extractDomain url else title) ≠ []
    split_ifs with ht
    · exact h1 url
    · exact ht
  · intro url h
    simp only [extractDomain]
    rw [h]
  · intro url netloc hp hd
    simp only [extractDomain]
    rw [hp]
    simp [hd]

/-- Witness for C10's parse-failure and empty-host fallback clauses: an
unbalanced bracket makes parsing fail and the rebound URL is returned,
and the empty input parses to an empty host and yields `https://`. -/
theorem extract_domain_total_witness :
    extractDomain "http://[a".toList
      = (if startsWithHttp "http://[a".toList then "http://[a".toList
         else "https://".toList ++ "http://[a".toList) ∧
    extractDomain "".toList
      = (if startsWithHttp "".toList then "".toList
         else "https://".toList ++ "".toList) :=
  ⟨extract_domain_total.2.2.1 "http://[a".toList (by rfl),
   extract_domain_total.2.2.2 "".toList [] (by rfl) (by rfl)⟩

/-! ## C4: filename synthesis -/

theorem mem_pyStrip {a : Char} {s : List Char} (h : a ∈ pyStrip s) : a ∈ s := by
  unfold pyStrip at h
  rw [List.mem_reverse] at h
  have h1 := (@List.dropWhile_sublist Char
    ((s.dropWhile pyIsSpace).reverse) pyIsSpace).subset h
  rw [List.mem_reverse] at h1
  exact (@List.dropWhile_sublist Char s pyIsSpace).subset h1

/-- C4 counterexample: the spec's sanitization rule (retain the allowed
characters of the first 50 title characters, then spaces to underscores)
disagrees with the synthesized filename for the title `" a"`: the code
strips leading and trailing whitespace between filtering and the
space-to-underscore replacement, producing `a` where the stated rule
produces `_a`. -/
theorem gen_filename_not_spec_rule :
    genFilename " a".toList "20250101_120000".toList
      ≠ "research_report_".toList ++ specSanitizedTitle " a".toList
        ++ '_' :: "20250101_120000".toList ++ ".pdf".toList ∧
    genFilename " a".toList "20250101_120000".toList
      = "research_report_a_20250101_120000.pdf".toList ∧
    specSanitizedTitle " a".toList = "_a".toList := by decide

/-- C4 (amended): with `filename` omitted the renderer produces
`research_report_<sanitized>_<timestamp>.pdf`, where the sanitized title
keeps only alphanumerics, spaces, hyphens and underscores from the first
50 characters of the title (truncation before sanitization), strips
leading and trailing whitespace, and then turns spaces into underscores;
for the title `"Quarterly Report: Q1!!"` the result is
`research_report_Quarterly_Report_Q1_<timestamp>.pdf` with a
second-resolution 14-digit timestamp. -/
theorem gen_filename_spec (query ts : List Char) :
    genFilename query ts = "research_report_".toList ++ safeQuery query
        ++ '_' :: ts ++ ".pdf".toList ∧
    safeQuery query = safeQuery (query.take 50) ∧
    (∀ c ∈ safeQuery query, c.isAlphanum ∨ c = '-' ∨ c = '_') ∧
    genFilename "Quarterly Report: Q1!!".toList "20250101_120000".toList
      = "research_report_Quarterly_Report_Q1_20250101_120000.pdf".toList := by
  refine ⟨?_, ?_, ?_, by decide⟩
  · unfold genFilename
    rw [if_pos]
    simp [List.isSuffixOf]
  · simp [safeQuery, List.take_take]
  · intro c hc
    obtain ⟨a, ha, hac⟩ := List.mem_map.mp hc
    have ha2 : a ∈ (query.take 50).filter keepChar := mem_pyStrip ha
    have hk : keepChar a = true := (List.mem_filter.mp ha2).2
    by_cases hsp : a = ' '
    · subst hsp
      rw [if_pos rfl] at hac
      subst hac
      right; right; rfl
    · rw [if_neg hsp] at hac
      subst hac
      unfold keepChar at hk
      rcases Bool.or_eq_true _ _ |>.mp hk with h | h
      · rcases Bool.or_eq_true _ _ |>.mp h with h2 | h2
        · rcases Bool.or_eq_true _ _ |>.mp h2 with h3 | h3
          · exact Or.inl h3
          · exact absurd (by simpa using h3) hsp
        · right; left; simpa using h2
      · right; right; simpa using h

/-- Witness for C4's amended character clause at a concrete title. -/
theorem gen_filename_spec_witness :
    'a' ∈ safeQuery "a b".toList ∧
      (Char.isAlphanum 'a' ∨ 'a' = '-' ∨ 'a' = '_') :=
  ⟨by decide, (gen_filename_spec "a b".toList "t".toList).2.2.1 'a' (by decide)⟩

/-! ## C7: HTML enhancement -/

theorem addClassPass_tagged {tag cls : List Char} {soup : List SoupNode} :
    ∀ n ∈ addClassPass tag cls soup, n.tag = tag → cls ∈ n.classes := by
  intro n hn htag
  obtain ⟨m, hm, he⟩ := List.mem_map.mp hn
  by_cases hmt : m.tag = tag
  · rw [if_pos hmt] at he
    subst he
    simp
  · rw [if_neg hmt] at he
    subst he
    exact absurd htag hmt

theorem addClassPass_provenance {tag cls : List Char} {soup : List SoupNode} :
    ∀ n ∈ addClassPass tag cls soup,
      ∃ m ∈ soup, n.tag = m.tag ∧ ∀ x ∈ m.classes, x ∈ n.classes := by
  intro n hn
  obtain ⟨m, hm, he⟩ := List.mem_map.mp hn
  refine ⟨m, hm, ?_, ?_⟩
  · by_cases hmt : m.tag = tag
    · rw [if_pos hmt] at he; subst he; rfl
    · rw [if_neg hmt] at he; subst he; rfl
  · intro x hx
    by_cases hmt : m.tag = tag
    · rw [if_pos hmt] at he; subst he; simp [hx]
    · rw [if_neg hmt] at he; subst he; exact hx

/-- C7: the HTML-enhancement step never propagates a failure: whenever
the black-box parse or serialization fails it returns its input
unchanged, and on success it returns the serialized soup in which every
`table`, `blockquote` and `pre` element has received its extra CSS
class. -/
theorem enhance_html_never_fails :
    (∀ (parse : List Char → Except (List Char) (List SoupNode))
        (render : List SoupNode → Except (List Char) (List Char))
        (html e : List Char), parse html = .error e →
        enhanceHtmlWithBs4 parse render html = html) ∧
    (∀ (parse : List Char → Except (List Char) (List SoupNode))
        (render : List SoupNode → Except (List Char) (List Char))
        (html : List Char) (soup : List SoupNode) (e : List Char),
        parse html = .ok soup → render (enhanceSoup soup) = .error e →
        enhanceHtmlWithBs4 parse render html = html) ∧
    (∀ (parse : List Char → Except (List Char) (List SoupNode))
        (render : List SoupNode → Except (List Char) (List Char))
        (html : List Char) (soup : List SoupNode) (out : List Char),
        parse html = .ok soup → render (enhanceSoup soup) = .ok out →
        enhanceHtmlWithBs4 parse render html = out) ∧
    (∀ (soup : List SoupNode), ∀ n ∈ enhanceSoup soup,
        (n.tag = "table".toList → "research-table".toList ∈ n.classes) ∧
        (n.tag = "blockquote".toList → "research-quote".toList ∈ n.classes) ∧
        (n.tag = "pre".toList → "research-code".toList ∈ n.classes)) := by
  refine ⟨?_, ?_, ?_, ?_⟩
  · intro parse render html e hp
    simp [enhanceHtmlWithBs4, hp]
  · intro parse render html soup e hp hr
    simp [enhanceHtmlWithBs4, hp, hr]
  · intro parse render html soup out hp hr
    simp [enhanceHtmlWithBs4, hp, hr]
  · intro soup n hn
    obtain ⟨m2, hm2, htag2, hsub2⟩ := addClassPass_provenance n hn
    obtain ⟨m1, hm1, htag1, hsub1⟩ := addClassPass_provenance m2 hm2
    refine ⟨?_, ?_, ?_⟩
    · intro ht
      exact hsub2 _ (hsub1 _ (addClassPass_tagged m1 hm1 (by rw [← htag1, ← htag2, ht])))
    · intro ht
      exact hsub2 _ (addClassPass_tagged m2 hm2 (by rw [← htag2, ht]))
    · intro ht
      exact addClassPass_tagged n hn ht

/-- Witness for C7 at a concrete failing parse and a concrete soup. -/
theorem enhance_html_never_fails_witness :
    enhanceHtmlWithBs4 (fun _ => Except.error "boom".toList)
        (fun _ => Except.error "boom".toList) "<p>".toList = "<p>".toList ∧
    "research-table".toList ∈
      (SoupNode.mk "table".toList ["research-table".toList]).classes :=
  ⟨enhance_html_never_fails.1 _ _ "<p>".toList "boom".toList rfl,
   (enhance_html_never_fails.2.2.2 [⟨"table".toList, []⟩]
      ⟨"table".toList, ["research-table".toList]⟩ (by decide)).1 rfl⟩

/-! ## C8: document assembly -/

theorem sortRefs_perm (refs : List URLReference) :
    List.Perm (sortRefs refs) refs :=
  List.mergeSort_perm refs _

theorem sortRefs_sorted (refs : List URLReference) :
    (sortRefs refs).Pairwise (fun a b => a.number ≤ b.number) := by
  have h := @List.sorted_mergeSort URLReference
    (fun a b : URLReference => decide (a.number ≤ b.number))
    (fun a b c hab hbc => by
      simp only [decide_eq_true_eq] at hab hbc ⊢
      omega)
    (fun a b => by
      simp only [Bool.or_eq_true, decide_eq_true_eq]
      omega)
    refs
  exact h.imp (fun hab => by simpa using hab)

/-- C8: the assembled document splices a references block that is empty
iff no reference was collected; when present the block lists the
collected references sorted by ascending number, and each entry's HTML
carries the reference's title and raw URL. -/
theorem create_html_document_spec (c q ts : List Char)
    (refs : List URLReference) :
    createHtmlDocument c q ts refs
      = docPart1 ++ q ++ docPart2 ++ ts ++ docPart3 ++ c ++ docPart4
        ++ refsHtml refs ++ docPart5 ∧
    (refsHtml refs = [] ↔ refs = []) ∧
    List.Perm (sortRefs refs) refs ∧
    (sortRefs refs).Pairwise (fun a b => a.number ≤ b.number) ∧
    (∀ r ∈ refs, entryHtml r <:+: refsHtml refs) ∧
    (∀ r : URLReference, entryHtml r
      = "<li><strong>".toList ++ r.title ++ "</strong><br/><a href='".toList
        ++ r.url ++ "'>".toList ++ r.url ++ "</a></li>".toList) := by
  refine ⟨rfl, ?_, sortRefs_perm refs, sortRefs_sorted refs, ?_, fun r => rfl⟩
  · constructor
    · intro h
      by_contra hne
      rw [refsHtml, if_neg hne] at h
      exact absurd (List.append_eq_nil.mp (List.append_eq_nil.mp h).1).1 (by decide)
    · intro h
      subst h
      rfl
  · intro r hr
    have hne : refs ≠ [] := by
      intro hc
      subst hc
      simp at hr
    have hmem : entryHtml r ∈ (sortRefs refs).map entryHtml :=
      List.mem_map_of_mem _ ((sortRefs_perm refs).mem_iff.mpr hr)
    have hinf := List.infix_of_mem_flatten hmem
    refine hinf.trans ?_
    rw [refsHtml, if_neg hne]
    exact ⟨"<div class='references'><h2>References</h2><ol class='references-list'>".toList,
      "</ol></div>".toList, by simp⟩

/-- Witness for C8's entry clause at a concrete reference list. -/
theorem create_html_document_spec_witness :
    entryHtml ⟨"u".toList, "t".toList, 2⟩
      <:+: refsHtml [⟨"u".toList, "t".toList, 2⟩, ⟨"v".toList, "s".toList, 1⟩] :=
  (create_html_document_spec [] [] []
      [⟨"u".toList, "t".toList, 2⟩, ⟨"v".toList, "s".toList, 1⟩]).2.2.2.2.1
    ⟨"u".toList, "t".toList, 2⟩ (by decide)

end PdfSpec
